import Mathlib

/-!
Verification of the missing-value imputation benchmarking harness
(`experiments/benchmarks.py`): a shallow embedding of its hyperparameter
search and evaluation loop (`fancyimpute_hpo`, `evaluate_mse`,
`dict_product`), its missingness mask generator
(`generate_missing_mask`), its dataset dispatch (`get_data`) and its
experiment orchestration (`experiment`), together with theorems about
the specified properties.

Modelling conventions:

* numpy floating-point values are modelled as exact rationals.  An
  expression that numpy evaluates to NaN — here only the mean of an
  empty slice — is modelled as `none` in the type `NpFloat := Option ℚ`.
* A matrix holding missing entries (NaN sentinels) is a function into
  `Option ℚ`, with `none` marking a missing entry.
* The hyperparameter search works in the flattened (linear) index space,
  exactly as the python code does via `reshape` / `np.prod(X.shape)`:
  matrices and masks handled by the search are `Fin N → ℚ` and
  `Fin N → Bool` over the flattened index space of `N` entries.
* Randomness is modelled by explicit oracle arguments: the validation
  draw of `np.random.choice` becomes a function `pick` selecting, for
  each of the `n_validation` slots, an element of `train_idx` (sampling
  with replacement: `pick` need not be injective); the random draws of
  the not-at-random mask generator are gathered in a structure
  `MnarDraw` whose proof fields record exactly the ranges from which
  `np.random.randint` draws its values.
* The imputer adapters (`fancyimputer(**params).fit_transform`) are
  external collaborators; the search model is parameterised over an
  arbitrary adapter function from hyperparameters and a matrix with
  missing entries to a completed matrix.
-/

/-- A numpy scalar: `some q` is the real value `q`, `none` models NaN
(produced by the mean of an empty slice). -/
abbrev NpFloat : Type := Option ℚ

/-- Row-major cartesian product of a list of value lists, in the
enumeration order of `itertools.product`: the first list varies slowest. -/
def list_product {α : Type} : List (List α) → List (List α)
  | [] => [[]]
  | vs :: rest => vs.flatMap (fun v => (list_product rest).map (fun tail => v :: tail))

/-- `dict_product`: cartesian product of hyperparameters.  A grid is an
association list from parameter name to the ordered list of candidate
values; the result enumerates every candidate assignment in
`itertools.product` order (`[dict(zip(keys, vals)) for vals in
itertools.product(*values)]`). -/
def dict_product (hp_dict : List (String × List ℚ)) : List (List (String × ℚ)) :=
  (list_product (hp_dict.map Prod.snd)).map (fun vals => (hp_dict.map Prod.fst).zip vals)

/-- `evaluate_mse(X_imputed, X, mask) = ((X_imputed[mask] - X[mask])**2).mean()`:
mean squared difference over the positions where `mask` is true.  The
mean of an empty selection is NaN in numpy, modelled by `none`. -/
def evaluate_mse {N : ℕ} (X_imputed X : Fin N → ℚ) (mask : Fin N → Bool) : NpFloat :=
  let idx := (List.finRange N).filter (fun i => mask i)
  if idx.isEmpty then none
  else some ((idx.map (fun i => (X_imputed i - X i) ^ 2)).sum / (idx.length : ℚ))

/-- Whether a scanned value `x` displaces the current best value `best`
in numpy's argmin reduction: a NaN best is never displaced, a NaN value
displaces any real best, and otherwise strict `<` decides (so on ties
the earlier element is kept). -/
def np_lt_update (x best : NpFloat) : Bool :=
  match best, x with
  | none, _ => false
  | some _, none => true
  | some b, some xq => decide (xq < b)

/-- `np.array(l).argmin()`: index of the first occurrence of the minimal
value; if the list contains NaN, the index of the first NaN.  (numpy
raises on an empty array; the model is only applied to non-empty lists,
guarded in `fancyimpute_hpo`.) -/
def np_argmin : List NpFloat → ℕ
  | [] => 0
  | x :: xs =>
    if xs.isEmpty then 0
    else
      let j := np_argmin xs
      if np_lt_update (xs.getD j none) x then j + 1 else 0

/-- The rational value stored at position `t` of a list of numpy scalars
(defaulting to `0`; meaningful when position `t` is a real value). -/
def mseAt (l : List NpFloat) (t : ℕ) : ℚ := (l.getD t none).getD 0

/-- Number of `true` entries of a flattened mask. -/
def countTrue {N : ℕ} (mask : Fin N → Bool) : ℕ :=
  ((List.finRange N).filter (fun i => mask i)).length

/-- Number of missing (NaN) entries of a flattened matrix with missing
values. -/
def countNone {N : ℕ} (v : Fin N → Option ℚ) : ℕ :=
  ((List.finRange N).filter (fun i => (v i).isNone)).length

/-- `train_idx = (mask.reshape(np.prod(X.shape)) == False).nonzero()[0]`:
the ascending list of flattened indices not under the evaluation mask. -/
def train_idx {N : ℕ} (mask : Fin N → Bool) : List (Fin N) :=
  (List.finRange N).filter (fun i => !(mask i))

/-- `n_validation = int(len(train_idx) * percent_validation/100)`:
the nominal validation draw count (floor, modelled exactly). -/
def n_validation {N : ℕ} (mask : Fin N → Bool) (percent_validation : ℕ) : ℕ :=
  (train_idx mask).length * percent_validation / 100

/-- `validation_idx = np.random.choice(train_idx, n_validation)`: a draw,
with replacement, of `n_validation` elements of `train_idx`.  The random
choices are the oracle `pick`; slot `j` receives element `pick j` of
`train_idx`. -/
def validation_idx {N : ℕ} (mask : Fin N → Bool) (pv : ℕ)
    (pick : Fin (n_validation mask pv) → Fin (train_idx mask).length) : List (Fin N) :=
  (List.finRange (n_validation mask pv)).map (fun j => (train_idx mask).get (pick j))

/-- The float array `validation_mask` before thresholding:
`np.zeros(np.prod(X.shape))` with `validation_mask[validation_idx] = 1`. -/
def validation_mask_vec {N : ℕ} (mask : Fin N → Bool) (pv : ℕ)
    (pick : Fin (n_validation mask pv) → Fin (train_idx mask).length) : Fin N → ℚ :=
  fun i => if i ∈ validation_idx mask pv pick then 1 else 0

/-- `validation_mask = validation_mask.reshape(X.shape) > 0`: the boolean
validation mask. -/
def validation_mask {N : ℕ} (mask : Fin N → Bool) (pv : ℕ)
    (pick : Fin (n_validation mask pv) → Fin (train_idx mask).length) : Fin N → Bool :=
  fun i => decide (0 < validation_mask_vec mask pv pick i)

/-- The matrix handed to the adapter during candidate evaluation:
`X_incomplete = X.copy(); X_incomplete[mask | validation_mask] = np.nan`. -/
def X_incomplete_search {N : ℕ} (X : Fin N → ℚ) (mask vmask : Fin N → Bool) :
    Fin N → Option ℚ :=
  fun i => if mask i || vmask i then none else some (X i)

/-- The matrix handed to the adapter for the final refit:
`X_incomplete = X.copy(); X_incomplete[mask] = np.nan`. -/
def X_incomplete_refit {N : ℕ} (X : Fin N → ℚ) (mask : Fin N → Bool) :
    Fin N → Option ℚ :=
  fun i => if mask i then none else some (X i)

/-- The list `mse_hpo` of validation errors, one per hyperparameter
candidate in `dict_product` order: for each candidate, run the adapter
on the search matrix and score it on the validation mask. -/
def mse_hpo {N : ℕ}
    (fancyimputer : List (String × ℚ) → (Fin N → Option ℚ) → (Fin N → ℚ))
    (param_candidates : List (String × List ℚ))
    (X : Fin N → ℚ) (mask : Fin N → Bool) (pv : ℕ)
    (pick : Fin (n_validation mask pv) → Fin (train_idx mask).length) : List NpFloat :=
  (dict_product param_candidates).map (fun params =>
    evaluate_mse
      (fancyimputer params (X_incomplete_search X mask (validation_mask mask pv pick)))
      X (validation_mask mask pv pick))

/-- `best_params = all_param_candidates[np.array(mse_hpo).argmin()]`. -/
def best_params {N : ℕ}
    (fancyimputer : List (String × ℚ) → (Fin N → Option ℚ) → (Fin N → ℚ))
    (param_candidates : List (String × List ℚ))
    (X : Fin N → ℚ) (mask : Fin N → Bool) (pv : ℕ)
    (pick : Fin (n_validation mask pv) → Fin (train_idx mask).length) :
    List (String × ℚ) :=
  (dict_product param_candidates).getD
    (np_argmin (mse_hpo fancyimputer param_candidates X mask pv pick)) []

/-- The refit imputation
`X_imputed = fancyimputer(**best_params).fit_transform(X_incomplete)`
on the matrix whose missing entries are exactly the evaluation mask. -/
def refit_output {N : ℕ}
    (fancyimputer : List (String × ℚ) → (Fin N → Option ℚ) → (Fin N → ℚ))
    (params : List (String × ℚ)) (X : Fin N → ℚ) (mask : Fin N → Bool) :
    Fin N → ℚ :=
  fancyimputer params (X_incomplete_refit X mask)

/-- The ordered trace of matrices passed to the adapter by one call of
`fancyimpute_hpo`: one search matrix per candidate, then — provided the
candidate loop produced at least one score, so that `argmin` does not
raise — the refit matrix. -/
def hpo_adapter_inputs {N : ℕ}
    (param_candidates : List (String × List ℚ))
    (X : Fin N → ℚ) (mask : Fin N → Bool) (pv : ℕ)
    (pick : Fin (n_validation mask pv) → Fin (train_idx mask).length) :
    List (Fin N → Option ℚ) :=
  ((dict_product param_candidates).map
    (fun _ => X_incomplete_search X mask (validation_mask mask pv pick)))
  ++ (if (dict_product param_candidates).isEmpty then [] else [X_incomplete_refit X mask])

/-- `fancyimpute_hpo`: the scalar returned by the hyperparameter search
(`mse_best`, the held-out MSE of the refit under the selected
candidate).  The outer `Option` models abnormal termination: with an
empty candidate list, `np.array([]).argmin()` raises before the refit. -/
def fancyimpute_hpo {N : ℕ}
    (fancyimputer : List (String × ℚ) → (Fin N → Option ℚ) → (Fin N → ℚ))
    (param_candidates : List (String × List ℚ))
    (X : Fin N → ℚ) (mask : Fin N → Bool) (pv : ℕ)
    (pick : Fin (n_validation mask pv) → Fin (train_idx mask).length) :
    Option NpFloat :=
  if (dict_product param_candidates).isEmpty then none
  else some (evaluate_mse
    (refit_output fancyimputer (best_params fancyimputer param_candidates X mask pv pick) X mask)
    X mask)

/-- The value produced by a recognized dataset branch of `get_data`:
the low-rank synthetic matrix, the swiss-roll embedding augmented with
its generating parameter, or a real tabular feature matrix.  The
matrices themselves come from external sklearn loaders and are opaque
here. -/
inductive LoadedData : Type where
  | lowRank : LoadedData
  | swissRoll : LoadedData
  | realTable : String → LoadedData
deriving DecidableEq

/-- `get_data(data_fn)` dispatches on `data_fn.__name__`.  The function
body has no final else branch: for an unrecognized name the local `X` is
never assigned and `return X` raises `UnboundLocalError`, modelled by
`none`. -/
def get_data (name : String) : Option LoadedData :=
  if name = "make_low_rank_matrix" then some LoadedData.lowRank
  else if name = "make_swiss_roll" then some LoadedData.swissRoll
  else if name = "load_digits" ∨ name = "load_wine" ∨ name = "load_diabetes" then
    some (LoadedData.realTable name)
  else none

/-- Bound used to place a row of the contiguous discard run inside
`Fin m`: the run starts at `start`, has length `ntd`, and the starting
offset was drawn so that `start + ntd + 2 ≤ m`. -/
theorem discard_run_lt {start t ntd m : ℕ} (ht : t < ntd) (hs : start + ntd + 2 ≤ m) :
    start + t < m := by omega

/-- The random draws consumed by one missing-not-at-random run of
`generate_missing_mask` on an `m × n` matrix `X`, with the ranges
numpy guarantees for them:

* `n_cols_affected = np.random.randint(2, X.shape[1])`, so
  `2 ≤ n_cols_affected < n`;
* `cols_permuted = np.random.permutation(range(X.shape[1]))`, a
  permutation of the columns; the first `n_cols_affected` entries are
  the affected columns, the rest the unaffected ones;
* `depends_on a`: the draw of `np.random.choice(cols_unaffected)` for
  affected column `a`, as an index into the unaffected block;
* `argsort a`: the permutation returned by
  `X[:,depends_on_col].argsort()` for affected column `a` — numpy
  leaves the order of tied values unspecified, so the model takes the
  permutation as a draw constrained to sort the driver column;
* `discard_lower_start a = np.random.randint(0, X.shape[0]-n_values_to_discard-1)`,
  so `discard_lower_start a + n_values_to_discard + 2 ≤ m` (numpy's
  `randint` upper bound is exclusive; it also requires the bound to be
  positive, which this inequality records). -/
structure MnarDraw (m n : ℕ) (X : Fin m → Fin n → ℚ) where
  n_cols_affected : ℕ
  two_le : 2 ≤ n_cols_affected
  lt_n : n_cols_affected < n
  cols_permuted : Equiv.Perm (Fin n)
  depends_on : Fin n_cols_affected → Fin (n - n_cols_affected)
  argsort : Fin n_cols_affected → Equiv.Perm (Fin m)
  argsort_sorted : ∀ (a : Fin n_cols_affected) (i j : Fin m), i ≤ j →
    X (argsort a i) (cols_permuted ⟨n_cols_affected + (depends_on a).val,
      by have h := (depends_on a).isLt; omega⟩) ≤
    X (argsort a j) (cols_permuted ⟨n_cols_affected + (depends_on a).val,
      by have h := (depends_on a).isLt; omega⟩)
  discard_lower_start : Fin n_cols_affected → ℕ
  start_le : ∀ a : Fin n_cols_affected,
    discard_lower_start a + m / n_cols_affected + 2 ≤ m

/-- `cols_affected = cols_permuted[:n_cols_affected]`: the `a`-th
affected column. -/
def cols_affected {m n : ℕ} {X : Fin m → Fin n → ℚ} (d : MnarDraw m n X)
    (a : Fin d.n_cols_affected) : Fin n :=
  d.cols_permuted ⟨a.val, by have h := a.isLt; have h2 := d.lt_n; omega⟩

/-- `cols_unaffected = cols_permuted[n_cols_affected:]`: the `u`-th
unaffected column. -/
def cols_unaffected {m n : ℕ} {X : Fin m → Fin n → ℚ} (d : MnarDraw m n X)
    (u : Fin (n - d.n_cols_affected)) : Fin n :=
  d.cols_permuted ⟨d.n_cols_affected + u.val, by have h := u.isLt; omega⟩

/-- `depends_on_col = np.random.choice(cols_unaffected)` for affected
column `a`. -/
def depends_on_col {m n : ℕ} {X : Fin m → Fin n → ℚ} (d : MnarDraw m n X)
    (a : Fin d.n_cols_affected) : Fin n :=
  cols_unaffected d (d.depends_on a)

/-- `n_values_to_discard = X.shape[0] // n_cols_affected`. -/
def n_values_to_discard {m n : ℕ} {X : Fin m → Fin n → ℚ} (d : MnarDraw m n X) : ℕ :=
  m / d.n_cols_affected

/-- `values_to_discard = X[:,depends_on_col].argsort()[discard_idx]`
with `discard_idx = range(discard_lower_start, discard_lower_start +
n_values_to_discard)`: the rows marked missing in affected column `a`. -/
def values_to_discard {m n : ℕ} {X : Fin m → Fin n → ℚ} (d : MnarDraw m n X)
    (a : Fin d.n_cols_affected) : List (Fin m) :=
  (List.finRange (n_values_to_discard d)).map (fun t =>
    d.argsort a ⟨d.discard_lower_start a + t.val, discard_run_lt t.isLt (d.start_le a)⟩)

/-- One iteration of the loop over affected columns:
`mask[values_to_discard, col_affected] = 1`. -/
def mnar_step {m n : ℕ} {X : Fin m → Fin n → ℚ} (d : MnarDraw m n X)
    (mask : Fin m → Fin n → Bool) (a : Fin d.n_cols_affected) :
    Fin m → Fin n → Bool :=
  fun r c =>
    if cols_affected d a = c ∧ r ∈ values_to_discard d a then true else mask r c

/-- The missing-not-at-random branch of `generate_missing_mask`:
starting from `np.zeros(X.shape)`, each affected column marks its
discard rows; the final `mask > 0` is the boolean mask. -/
def mnar_mask {m n : ℕ} (X : Fin m → Fin n → ℚ) (d : MnarDraw m n X) :
    Fin m → Fin n → Bool :=
  (List.finRange d.n_cols_affected).foldl (mnar_step d) (fun _ _ => false)

/-- `generate_missing_mask(X, percent_missing, missing_at_random)`.
The missing-at-random branch is `np.random.rand(*X.shape) <
percent_missing/100.` with `rand` the drawn uniform matrix; the other
branch is the structured mechanism driven by the draws `d`. -/
def generate_missing_mask {m n : ℕ} (X : Fin m → Fin n → ℚ)
    (percent_missing : ℕ) (missing_at_random : Bool)
    (rand : Fin m → Fin n → ℚ) (d : MnarDraw m n X) : Fin m → Fin n → Bool :=
  if missing_at_random then
    fun r c => decide (rand r c < (percent_missing : ℚ) / 100)
  else
    mnar_mask X d

/-- One result record of `experiment`, minus the reported `mse` (which
depends on the external imputer libraries): the dataset index into
`DATA_LOADERS`, the imputer index into `imputers`, the percent missing,
the mechanism flag, plus the routing of randomness — `maskDraw` is the
ordinal of the `generate_missing_mask` call that produced the record's
mask (each call advances the shared numpy generator exactly once per
triple), and `missing_mask` is the mask that draw returned, of abstract
type `α`. -/
structure ExpRecord (α : Type) where
  percent_missing : ℕ
  dataIdx : Fin 4
  missing_at_random : Bool
  imputerIdx : Fin 4
  maskDraw : ℕ
  missing_mask : α
deriving DecidableEq

/-- The orchestration schedule of `experiment(percent_missing_list)`:
for each percent (outer loop), each of the 4 datasets, each mechanism in
`[True, False]`, draw one mask (`drawMask` applied to the running draw
counter) and evaluate each of the 4 imputers on it, emitting one record
per combination in loop order. -/
def experiment (α : Type) (drawMask : ℕ → α) (percent_missing_list : List ℕ) :
    List (ExpRecord α) :=
  (List.range percent_missing_list.length).flatMap (fun pi =>
    (List.finRange 4).flatMap (fun di =>
      (List.range 2).flatMap (fun mi =>
        (List.finRange 4).map (fun ii =>
          { percent_missing := percent_missing_list.getD pi 0
            dataIdx := di
            missing_at_random := decide (mi = 0)
            imputerIdx := ii
            maskDraw := (pi * 4 + di.val) * 2 + mi
            missing_mask := drawMask ((pi * 4 + di.val) * 2 + mi) }))))

/-! ### Helper lemmas about the validation draw -/

theorem mask_false_of_mem_train_idx {N : ℕ} {mask : Fin N → Bool} {i : Fin N}
    (h : i ∈ train_idx mask) : mask i = false := by
  have h2 := (List.mem_filter.mp h).2
  simpa using h2

theorem mask_false_of_mem_validation_idx {N : ℕ} {mask : Fin N → Bool} {pv : ℕ}
    {pick : Fin (n_validation mask pv) → Fin (train_idx mask).length} {i : Fin N}
    (h : i ∈ validation_idx mask pv pick) : mask i = false := by
  obtain ⟨j, _, rfl⟩ := List.mem_map.mp h
  exact mask_false_of_mem_train_idx (List.get_mem _ _ _)

theorem validation_mask_iff_mem {N : ℕ} (mask : Fin N → Bool) (pv : ℕ)
    (pick : Fin (n_validation mask pv) → Fin (train_idx mask).length) (i : Fin N) :
    validation_mask mask pv pick i = true ↔ i ∈ validation_idx mask pv pick := by
  unfold validation_mask validation_mask_vec
  by_cases h : i ∈ validation_idx mask pv pick <;> simp [h]

theorem validation_and_eval_disjoint {N : ℕ} (mask : Fin N → Bool) (pv : ℕ)
    (pick : Fin (n_validation mask pv) → Fin (train_idx mask).length) (i : Fin N) :
    (mask i && validation_mask mask pv pick i) = false := by
  cases hv : validation_mask mask pv pick i with
  | false => simp
  | true =>
    have := mask_false_of_mem_validation_idx ((validation_mask_iff_mem mask pv pick i).mp hv)
    simp [this]

/-- The proposition claimed in the spec's open question: some execution
of the hyperparameter search produces a validation mask sharing a true
entry with the evaluation mask. -/
def validation_overlaps_eval : Prop :=
  ∃ (N : ℕ) (mask : Fin N → Bool) (pv : ℕ)
    (pick : Fin (n_validation mask pv) → Fin (train_idx mask).length) (i : Fin N),
    mask i = true ∧ validation_mask mask pv pick i = true

/-- Claim C6, counterexample (negation of the claim): no execution of
the hyperparameter search can make the validation mask overlap the
evaluation mask, because `np.random.choice` draws the validation
indices from `train_idx`, the indices where the evaluation mask is
false. -/
theorem validation_overlap_impossible : ¬ validation_overlaps_eval := by
  rintro ⟨N, mask, pv, pick, i, hm, hv⟩
  have h := validation_and_eval_disjoint mask pv pick i
  rw [hm, hv] at h
  exact Bool.noConfusion h

/-- Claim C6, amended: in every execution of the hyperparameter search
the validation mask is disjoint from the evaluation mask in index
space — no entry is true in both masks, since validation indices are
sampled only from entries where the evaluation mask is false. -/
theorem validation_mask_never_overlaps {N : ℕ} (mask : Fin N → Bool) (pv : ℕ)
    (pick : Fin (n_validation mask pv) → Fin (train_idx mask).length) (i : Fin N) :
    (mask i && validation_mask mask pv pick i) = false :=
  validation_and_eval_disjoint mask pv pick i

/-- Claim C9: for every source identifier other than the five
recognized names, `get_data` raises (the fall-through leaves `X`
unassigned, so `return X` raises `UnboundLocalError`) rather than
returning a matrix. -/
theorem get_data_unrecognized_raises (name : String)
    (h : name ∉ (["make_low_rank_matrix", "make_swiss_roll", "load_digits",
      "load_wine", "load_diabetes"] : List String)) :
    get_data name = none := by
  simp only [List.mem_cons, List.not_mem_nil, or_false] at h
  push_neg at h
  obtain ⟨h1, h2, h3, h4, h5⟩ := h
  simp [get_data, h1, h2, h3, h4, h5]

/-- Witness for claim C9 at the concrete unrecognized name
`load_boston`. -/
theorem get_data_unrecognized_raises_witness :
    ("load_boston" : String) ∉ (["make_low_rank_matrix", "make_swiss_roll", "load_digits",
      "load_wine", "load_diabetes"] : List String) ∧ get_data "load_boston" = none :=
  ⟨by decide, get_data_unrecognized_raises "load_boston" (by decide)⟩

/-! ### Counting lemmas -/

theorem countTrue_mono {N : ℕ} {m1 m2 : Fin N → Bool}
    (h : ∀ i, m1 i = true → m2 i = true) : countTrue m1 ≤ countTrue m2 := by
  unfold countTrue
  rw [← List.countP_eq_length_filter, ← List.countP_eq_length_filter]
  exact List.countP_mono_left (fun i _ hi => h i hi)

theorem countNone_X_incomplete_search {N : ℕ} (X : Fin N → ℚ) (mask vmask : Fin N → Bool) :
    countNone (X_incomplete_search X mask vmask) = countTrue (fun i => mask i || vmask i) := by
  unfold countNone countTrue X_incomplete_search
  congr 1
  apply List.filter_congr
  intro i _
  by_cases h : (mask i || vmask i) = true <;> simp [h]

theorem countNone_X_incomplete_refit {N : ℕ} (X : Fin N → ℚ) (mask : Fin N → Bool) :
    countNone (X_incomplete_refit X mask) = countTrue mask := by
  unfold countNone countTrue X_incomplete_refit
  congr 1
  apply List.filter_congr
  intro i _
  by_cases h : mask i = true <;> simp [h]

theorem countTrue_validation_mask_le {N : ℕ} (mask : Fin N → Bool) (pv : ℕ)
    (pick : Fin (n_validation mask pv) → Fin (train_idx mask).length) :
    countTrue (validation_mask mask pv pick) ≤ (validation_idx mask pv pick).length := by
  unfold countTrue
  have hcongr : (List.finRange N).filter (fun i => validation_mask mask pv pick i) =
      (List.finRange N).filter (fun i => decide (i ∈ validation_idx mask pv pick)) := by
    apply List.filter_congr
    intro i _
    by_cases h : i ∈ validation_idx mask pv pick <;>
      simp [validation_mask, validation_mask_vec, h]
  rw [hcongr]
  calc ((List.finRange N).filter (fun i => decide (i ∈ validation_idx mask pv pick))).length
      = ((List.finRange N).filter
          (fun i => decide (i ∈ validation_idx mask pv pick))).toFinset.card :=
        (List.toFinset_card_of_nodup (List.Nodup.filter _ (List.nodup_finRange N))).symm
    _ ≤ (validation_idx mask pv pick).toFinset.card := by
        apply Finset.card_le_card
        intro x hx
        rw [List.mem_toFinset] at hx ⊢
        have := List.of_mem_filter hx
        exact of_decide_eq_true this
    _ ≤ (validation_idx mask pv pick).length := List.toFinset_card_le _

/-! ### Concrete instances shared by witnesses and counterexamples -/

/-- A concrete 2-entry flattened ground-truth matrix. -/
def X2 : Fin 2 → ℚ := fun _ => 0

/-- A concrete evaluation mask on 2 entries, true exactly at entry 0. -/
def mask2 : Fin 2 → Bool := fun i => decide (i.val = 0)

/-- The validation pick for `mask2`: one training entry gives a nominal
validation draw count of zero, so there is nothing to pick. -/
def pick2 : Fin (n_validation mask2 10) → Fin (train_idx mask2).length :=
  fun j => Fin.elim0 (Fin.cast (by decide) j)

/-- A concrete one-candidate hyperparameter grid. -/
def grid1 : List (String × List ℚ) := [("fill_method", [0])]

/-- A concrete grid yielding zero candidates: one parameter whose value
list is empty. -/
def grid0 : List (String × List ℚ) := [("k", [])]

/-- An all-false evaluation mask over 20 entries. -/
def mask20 : Fin 20 → Bool := fun _ => false

/-- A duplicate validation pick for `mask20`: both of the two validation
slots draw training element 0. -/
def pick20 : Fin (n_validation mask20 10) → Fin (train_idx mask20).length :=
  fun _ => ⟨0, by decide⟩

/-- Claim C2: every matrix passed to the imputer adapter by one call of
the hyperparameter search contains at least as many missing sentinels
as the evaluation mask has true entries; the candidate-evaluation
matrix is missing exactly on the union of the evaluation and
validation masks, and the refit matrix exactly on the evaluation
mask. -/
theorem hpo_adapter_inputs_missing_superset {N : ℕ}
    (param_candidates : List (String × List ℚ)) (X : Fin N → ℚ) (mask : Fin N → Bool)
    (pv : ℕ) (pick : Fin (n_validation mask pv) → Fin (train_idx mask).length) :
    (∀ A ∈ hpo_adapter_inputs param_candidates X mask pv pick,
      countTrue mask ≤ countNone A) ∧
    (∀ i, X_incomplete_search X mask (validation_mask mask pv pick) i = none ↔
      (mask i || validation_mask mask pv pick i) = true) ∧
    (∀ i, X_incomplete_refit X mask i = none ↔ mask i = true) := by
  refine ⟨?_, ?_, ?_⟩
  · intro A hA
    unfold hpo_adapter_inputs at hA
    rcases List.mem_append.mp hA with h | h
    · obtain ⟨p, _, rfl⟩ := List.mem_map.mp h
      rw [countNone_X_incomplete_search]
      exact countTrue_mono (fun i hi => by simp [hi])
    · split at h
      · exact absurd h (List.not_mem_nil A)
      · rw [List.mem_singleton.mp h, countNone_X_incomplete_refit]
  · intro i
    unfold X_incomplete_search
    by_cases h : (mask i || validation_mask mask pv pick i) = true <;> simp [h]
  · intro i
    unfold X_incomplete_refit
    by_cases h : mask i = true <;> simp [h]

/-- Witness for claim C2 at a concrete call: the refit matrix is among
the adapter inputs and has at least as many missing entries as the
evaluation mask has true entries. -/
theorem hpo_adapter_inputs_missing_superset_witness :
    X_incomplete_refit X2 mask2 ∈ hpo_adapter_inputs grid1 X2 mask2 10 pick2 ∧
    countTrue mask2 ≤ countNone (X_incomplete_refit X2 mask2) := by
  have hm : X_incomplete_refit X2 mask2 ∈ hpo_adapter_inputs grid1 X2 mask2 10 pick2 := by
    have he : hpo_adapter_inputs grid1 X2 mask2 10 pick2 =
        [X_incomplete_search X2 mask2 (validation_mask mask2 10 pick2),
         X_incomplete_refit X2 mask2] := rfl
    rw [he]
    exact List.mem_cons_of_mem _ (List.mem_singleton.mpr rfl)
  exact ⟨hm, (hpo_adapter_inputs_missing_superset grid1 X2 mask2 10 pick2).1 _ hm⟩

/-- Claim C7: the validation draw samples, with replacement, exactly
`⌊len(train_idx) · percent_validation / 100⌋` indices, all of them from
entries not under the evaluation mask; the realized validation mask
therefore has at most that many true entries, and an execution exists
(duplicate draws) in which it has strictly fewer. -/
theorem hpo_validation_sampling {N : ℕ} (mask : Fin N → Bool) (pv : ℕ)
    (pick : Fin (n_validation mask pv) → Fin (train_idx mask).length) :
    (validation_idx mask pv pick).length = (train_idx mask).length * pv / 100 ∧
    (∀ i ∈ validation_idx mask pv pick, mask i = false) ∧
    countTrue (validation_mask mask pv pick) ≤ (train_idx mask).length * pv / 100 ∧
    (∃ (M : ℕ) (maskE : Fin M → Bool)
       (pickE : Fin (n_validation maskE 10) → Fin (train_idx maskE).length),
       countTrue (validation_mask maskE 10 pickE) < n_validation maskE 10) := by
  refine ⟨by simp [validation_idx, n_validation], ?_, ?_, ⟨20, mask20, pick20, by decide⟩⟩
  · intro i hi
    exact mask_false_of_mem_validation_idx hi
  · exact le_of_le_of_eq (countTrue_validation_mask_le mask pv pick)
      (by simp [validation_idx, n_validation])

/-- Witness for claim C7 at a concrete call: entry 0 is drawn into the
validation set and is indeed not under the evaluation mask. -/
theorem hpo_validation_sampling_witness :
    (0 : Fin 20) ∈ validation_idx mask20 10 pick20 ∧ mask20 0 = false :=
  ⟨by decide, (hpo_validation_sampling mask20 10 pick20).2.1 0 (by decide)⟩

/-- Claim C8, amended: the adapter is invoked at most `N + 1` times per
call of the hyperparameter search, where `N` is the number of grid
candidates, and exactly `N + 1` times (once per candidate plus one
refit) whenever the grid yields at least one candidate.  (With zero
candidates the candidate loop makes no invocation and the selection
step raises, so only 0 invocations happen.) -/
theorem hpo_adapter_call_count {N : ℕ}
    (param_candidates : List (String × List ℚ)) (X : Fin N → ℚ) (mask : Fin N → Bool)
    (pv : ℕ) (pick : Fin (n_validation mask pv) → Fin (train_idx mask).length) :
    (hpo_adapter_inputs param_candidates X mask pv pick).length ≤
      (dict_product param_candidates).length + 1 ∧
    (dict_product param_candidates ≠ [] →
      (hpo_adapter_inputs param_candidates X mask pv pick).length =
        (dict_product param_candidates).length + 1) := by
  unfold hpo_adapter_inputs
  constructor
  · rw [List.length_append, List.length_map]
    split <;> simp
  · intro h
    rw [List.length_append, List.length_map]
    rw [if_neg (by simpa [List.isEmpty_iff] using h)]
    simp

/-- Witness for claim C8 at a concrete call with one candidate: exactly
two adapter invocations. -/
theorem hpo_adapter_call_count_witness :
    (hpo_adapter_inputs grid1 X2 mask2 10 pick2).length =
      (dict_product grid1).length + 1 :=
  (hpo_adapter_call_count grid1 X2 mask2 10 pick2).2 (by decide)

/-- Claim C8, counterexample: with the zero-candidate grid `grid0` the
adapter is invoked zero times — the candidate loop is empty and
`np.array([]).argmin()` raises before the refit — not `0 + 1 = 1`
times. -/
theorem hpo_adapter_call_count_empty_grid :
    (hpo_adapter_inputs grid0 X2 mask2 10 pick2).length ≠
      (dict_product grid0).length + 1 := by decide

/-! ### Sum lemmas for the mean-squared-error characterization -/

theorem list_sum_eq_zero_iff_of_nonneg (l : List ℚ) (h : ∀ x ∈ l, 0 ≤ x) :
    l.sum = 0 ↔ ∀ x ∈ l, x = 0 := by
  induction l with
  | nil => simp
  | cons a l ih =>
    simp only [List.sum_cons, List.mem_cons] at *
    have ha : 0 ≤ a := h a (Or.inl rfl)
    have hl : ∀ x ∈ l, 0 ≤ x := fun x hx => h x (Or.inr hx)
    have hsum : 0 ≤ l.sum := List.sum_nonneg hl
    constructor
    · intro h0
      have ha0 : a = 0 := by linarith
      have hs0 : l.sum = 0 := by linarith
      rintro x (rfl | hx)
      · exact ha0
      · exact (ih hl).mp hs0 x hx
    · intro hall
      have ha0 : a = 0 := hall a (Or.inl rfl)
      have hs0 : l.sum = 0 := (ih hl).mpr (fun x hx => hall x (Or.inr hx))
      rw [ha0, hs0, add_zero]

theorem evaluate_mse_some_of_mask_nonempty {N : ℕ} (Ximp X : Fin N → ℚ)
    (mask : Fin N → Bool) (hm : ∃ i, mask i = true) :
    ∃ r : ℚ, evaluate_mse Ximp X mask = some r ∧ 0 ≤ r ∧
      (r = 0 ↔ ∀ i, mask i = true → Ximp i = X i) := by
  unfold evaluate_mse
  set idx := (List.finRange N).filter (fun i => mask i) with hidx
  have hne : idx ≠ [] := by
    obtain ⟨i, hi⟩ := hm
    intro hnil
    have hmem : i ∈ idx := List.mem_filter.mpr ⟨List.mem_finRange i, hi⟩
    rw [hnil] at hmem
    exact List.not_mem_nil i hmem
  have hnn : ∀ x ∈ idx.map (fun i => (Ximp i - X i) ^ 2), 0 ≤ x := by
    intro x hx
    obtain ⟨j, _, rfl⟩ := List.mem_map.mp hx
    positivity
  have hlen : (0:ℚ) < (idx.length : ℚ) := by
    have : 0 < idx.length := List.length_pos.mpr hne
    exact_mod_cast this
  rw [if_neg (by simpa [List.isEmpty_iff] using hne)]
  refine ⟨_, rfl, div_nonneg (List.sum_nonneg hnn) (le_of_lt hlen), ?_⟩
  constructor
  · intro hr
    rcases div_eq_zero_iff.mp hr with hs | hl0
    · intro i hi
      have hmem : i ∈ idx := List.mem_filter.mpr ⟨List.mem_finRange i, hi⟩
      have hterm : (Ximp i - X i) ^ 2 = 0 :=
        (list_sum_eq_zero_iff_of_nonneg _ hnn).mp hs _ (List.mem_map.mpr ⟨i, hmem, rfl⟩)
      have h2 : Ximp i - X i = 0 := (pow_eq_zero_iff (by norm_num : (2:ℕ) ≠ 0)).mp hterm
      exact sub_eq_zero.mp h2
    · exact absurd hl0 (ne_of_gt hlen)
  · intro hall
    have hs : (idx.map (fun i => (Ximp i - X i) ^ 2)).sum = 0 := by
      apply (list_sum_eq_zero_iff_of_nonneg _ hnn).mpr
      intro x hx
      obtain ⟨i, hi, rfl⟩ := List.mem_map.mp hx
      have hmi : mask i = true := by simpa using (List.mem_filter.mp hi).2
      rw [hall i hmi, sub_self]
      norm_num
    rw [hs, zero_div]

/-- The constant-zero imputer adapter used by concrete instances. -/
def adapter0 {N : ℕ} : List (String × ℚ) → (Fin N → Option ℚ) → (Fin N → ℚ) :=
  fun _ _ _ => 0

/-- A concrete 1-entry ground-truth matrix. -/
def X1 : Fin 1 → ℚ := fun _ => 0

/-- The all-false evaluation mask on 1 entry. -/
def maskF1 : Fin 1 → Bool := fun _ => false

/-- The validation pick for `maskF1` (nominal draw count zero). -/
def pickF1 : Fin (n_validation maskF1 10) → Fin (train_idx maskF1).length :=
  fun j => Fin.elim0 (Fin.cast (by decide) j)

/-- Claim C1, amended: provided the grid yields at least one candidate
(so selection does not raise) and the evaluation mask has at least one
true entry (otherwise the final mean is the NaN mean of an empty
slice), the scalar returned by `fancyimpute_hpo` is a non-negative
rational, and it equals 0 exactly when the refit imputation agrees with
`X` at every position where the evaluation mask is true. -/
theorem fancyimpute_hpo_nonneg_zero_iff {N : ℕ}
    (fancyimputer : List (String × ℚ) → (Fin N → Option ℚ) → (Fin N → ℚ))
    (param_candidates : List (String × List ℚ)) (X : Fin N → ℚ) (mask : Fin N → Bool)
    (pv : ℕ) (pick : Fin (n_validation mask pv) → Fin (train_idx mask).length)
    (hc : dict_product param_candidates ≠ []) (hm : ∃ i, mask i = true) :
    ∃ r : ℚ,
      fancyimpute_hpo fancyimputer param_candidates X mask pv pick = some (some r) ∧
      0 ≤ r ∧
      (r = 0 ↔ ∀ i, mask i = true →
        refit_output fancyimputer
          (best_params fancyimputer param_candidates X mask pv pick) X mask i = X i) := by
  obtain ⟨r, hr, hnng, hiff⟩ := evaluate_mse_some_of_mask_nonempty
    (refit_output fancyimputer (best_params fancyimputer param_candidates X mask pv pick) X mask)
    X mask hm
  refine ⟨r, ?_, hnng, hiff⟩
  unfold fancyimpute_hpo
  rw [if_neg (by simpa [List.isEmpty_iff] using hc), hr]

/-- Witness for claim C1 (amended) at a concrete call: an evaluation
mask with one true entry and a one-candidate grid with the
constant-zero adapter on the zero matrix. -/
theorem fancyimpute_hpo_nonneg_zero_iff_witness :
    dict_product grid1 ≠ [] ∧ (∃ i, mask2 i = true) ∧
    ∃ r : ℚ,
      fancyimpute_hpo adapter0 grid1 X2 mask2 10 pick2 = some (some r) ∧
      0 ≤ r ∧
      (r = 0 ↔ ∀ i, mask2 i = true →
        refit_output adapter0 (best_params adapter0 grid1 X2 mask2 10 pick2) X2 mask2 i
          = X2 i) :=
  ⟨by decide, ⟨0, by decide⟩,
    fancyimpute_hpo_nonneg_zero_iff adapter0 grid1 X2 mask2 10 pick2
      (by decide) ⟨0, by decide⟩⟩

/-- Claim C1, counterexample: with an all-false evaluation mask the
search returns NaN — the mean over the empty masked slice — not a
non-negative real number, although the refit output trivially agrees
with `X` at every (i.e. no) masked position. -/
theorem fancyimpute_hpo_nan_on_empty_mask :
    fancyimpute_hpo adapter0 grid1 X1 maskF1 10 pickF1 = some none ∧
    ¬ ∃ r : ℚ, fancyimpute_hpo adapter0 grid1 X1 maskF1 10 pickF1 = some (some r) := by
  refine ⟨rfl, ?_⟩
  rintro ⟨r, hr⟩
  have h2 : (some (none : NpFloat) : Option NpFloat) = some (some r) :=
    ((rfl : fancyimpute_hpo adapter0 grid1 X1 maskF1 10 pickF1 = some none)).symm.trans hr
  exact Option.noConfusion (Option.some.inj h2)

/-! ### Lemmas about the numpy argmin reduction -/

theorem mseAt_cons_zero (x : NpFloat) (xs : List NpFloat) : mseAt (x :: xs) 0 = x.getD 0 := rfl

theorem mseAt_cons_succ (x : NpFloat) (xs : List NpFloat) (t : ℕ) :
    mseAt (x :: xs) (t + 1) = mseAt xs t := rfl

theorem getD_eq_some_mseAt {l : List NpFloat} (hnn : none ∉ l) {t : ℕ} (ht : t < l.length) :
    l.getD t none = some (mseAt l t) := by
  have hmem : l.getD t none ∈ l := by
    rw [List.getD_eq_getElem l none ht]
    exact List.getElem_mem ht
  cases hx : l.getD t none with
  | none => rw [hx] at hmem; exact absurd hmem hnn
  | some q => simp only [mseAt, hx, Option.getD_some]

theorem np_argmin_lt_length (l : List NpFloat) (h : l ≠ []) : np_argmin l < l.length := by
  induction l with
  | nil => exact absurd rfl h
  | cons x xs ih =>
    simp only [np_argmin]
    by_cases hxs : xs.isEmpty
    · simp [hxs]
    · rw [if_neg hxs]
      split
      · have := ih (by simpa [List.isEmpty_iff] using hxs)
        simp only [List.length_cons]
        omega
      · simp

theorem np_argmin_le (l : List NpFloat) (hnn : none ∉ l) :
    ∀ t < l.length, mseAt l (np_argmin l) ≤ mseAt l t := by
  induction l with
  | nil => intro t ht; simp at ht
  | cons x xs ih =>
    have hx : none ≠ x ∧ none ∉ xs := by simpa [List.mem_cons, not_or] using hnn
    obtain ⟨hx1, hx2⟩ := hx
    intro t ht
    by_cases hxs : xs.isEmpty
    · have hxsnil : xs = [] := List.isEmpty_iff.mp hxs
      subst hxsnil
      simp only [List.length_cons, List.length_nil] at ht
      interval_cases t
      · simp [np_argmin]
    · have hxsne : xs ≠ [] := by simpa [List.isEmpty_iff] using hxs
      have hj : np_argmin xs < xs.length := np_argmin_lt_length xs hxsne
      obtain ⟨xq, rfl⟩ : ∃ q, x = some q := by
        cases x with
        | none => exact absurd rfl hx1
        | some q => exact ⟨q, rfl⟩
      have hgetD : xs.getD (np_argmin xs) none = some (mseAt xs (np_argmin xs)) :=
        getD_eq_some_mseAt hx2 hj
      simp only [np_argmin, if_neg hxs, hgetD, np_lt_update]
      by_cases hlt : mseAt xs (np_argmin xs) < xq
      · rw [if_pos (by simpa using hlt)]
        rw [mseAt_cons_succ]
        cases t with
        | zero => rw [mseAt_cons_zero]; exact le_of_lt (by simpa using hlt)
        | succ t2 =>
          rw [mseAt_cons_succ]
          exact ih hx2 t2 (by simpa using ht)
      · rw [if_neg (by simpa using hlt)]
        cases t with
        | zero => exact le_refl _
        | succ t2 =>
          rw [mseAt_cons_zero, mseAt_cons_succ]
          have h1 : xq ≤ mseAt xs (np_argmin xs) := le_of_not_lt hlt
          have h2 := ih hx2 t2 (by simpa using ht)
          simpa using le_trans h1 h2

theorem np_argmin_first (l : List NpFloat) (hnn : none ∉ l) :
    ∀ t < np_argmin l, mseAt l (np_argmin l) < mseAt l t := by
  induction l with
  | nil => intro t ht; simp [np_argmin] at ht
  | cons x xs ih =>
    have hx : none ≠ x ∧ none ∉ xs := by simpa [List.mem_cons, not_or] using hnn
    obtain ⟨hx1, hx2⟩ := hx
    intro t ht
    by_cases hxs : xs.isEmpty
    · simp [np_argmin, hxs] at ht
    · have hxsne : xs ≠ [] := by simpa [List.isEmpty_iff] using hxs
      have hj : np_argmin xs < xs.length := np_argmin_lt_length xs hxsne
      obtain ⟨xq, rfl⟩ : ∃ q, x = some q := by
        cases x with
        | none => exact absurd rfl hx1
        | some q => exact ⟨q, rfl⟩
      have hgetD : xs.getD (np_argmin xs) none = some (mseAt xs (np_argmin xs)) :=
        getD_eq_some_mseAt hx2 hj
      simp only [np_argmin, if_neg hxs, hgetD, np_lt_update] at ht ⊢
      by_cases hlt : mseAt xs (np_argmin xs) < xq
      · rw [if_pos (by simpa using hlt)] at ht ⊢
        rw [mseAt_cons_succ]
        cases t with
        | zero => rw [mseAt_cons_zero]; simpa using hlt
        | succ t2 =>
          rw [mseAt_cons_succ]
          exact ih hx2 t2 (by omega)
      · rw [if_neg (by simpa using hlt)] at ht
        omega

/-- An all-false evaluation mask over 10 entries. -/
def mask10 : Fin 10 → Bool := fun _ => false

/-- A concrete 10-entry flattened ground-truth matrix. -/
def X10 : Fin 10 → ℚ := fun _ => 0

/-- A concrete two-candidate grid whose candidates tie. -/
def gridT : List (String × List ℚ) := [("k", [2, 4])]

/-- The validation pick for `mask10`: the single validation slot draws
training element 0. -/
def pick10 : Fin (n_validation mask10 10) → Fin (train_idx mask10).length :=
  fun _ => ⟨0, by decide⟩

/-- Claim C5: when grid candidates tie for the minimum validation MSE,
the hyperparameter search selects the candidate occurring first in the
cartesian enumeration order of `dict_product`: the selected index is no
later than any minimising index, attains the minimum, and `best_params`
is the candidate of the grid at exactly that index. -/
theorem hpo_tie_break_first {N : ℕ}
    (fancyimputer : List (String × ℚ) → (Fin N → Option ℚ) → (Fin N → ℚ))
    (param_candidates : List (String × List ℚ)) (X : Fin N → ℚ) (mask : Fin N → Bool)
    (pv : ℕ) (pick : Fin (n_validation mask pv) → Fin (train_idx mask).length)
    (i j : ℕ)
    (hnn : none ∉ mse_hpo fancyimputer param_candidates X mask pv pick)
    (hij : i < j)
    (hj : j < (mse_hpo fancyimputer param_candidates X mask pv pick).length)
    (_htie : mseAt (mse_hpo fancyimputer param_candidates X mask pv pick) j =
      mseAt (mse_hpo fancyimputer param_candidates X mask pv pick) i)
    (hmin : ∀ t < (mse_hpo fancyimputer param_candidates X mask pv pick).length,
      mseAt (mse_hpo fancyimputer param_candidates X mask pv pick) i ≤
        mseAt (mse_hpo fancyimputer param_candidates X mask pv pick) t) :
    np_argmin (mse_hpo fancyimputer param_candidates X mask pv pick) ≤ i ∧
    mseAt (mse_hpo fancyimputer param_candidates X mask pv pick)
      (np_argmin (mse_hpo fancyimputer param_candidates X mask pv pick)) =
      mseAt (mse_hpo fancyimputer param_candidates X mask pv pick) i ∧
    best_params fancyimputer param_candidates X mask pv pick =
      (dict_product param_candidates).getD
        (np_argmin (mse_hpo fancyimputer param_candidates X mask pv pick)) [] := by
  set L := mse_hpo fancyimputer param_candidates X mask pv pick with hL
  have hi : i < L.length := lt_trans hij hj
  have hne : L ≠ [] := by
    intro h0
    rw [h0] at hi
    simp at hi
  have hA : np_argmin L < L.length := np_argmin_lt_length L hne
  refine ⟨?_, ?_, rfl⟩
  · by_contra hgt
    push_neg at hgt
    have h1 := np_argmin_first L hnn i hgt
    have h2 := hmin (np_argmin L) hA
    linarith
  · exact le_antisymm (np_argmin_le L hnn i hi) (hmin _ hA)

/-- Witness for claim C5 at a concrete call: two candidates with equal
(zero) validation MSE under the constant-zero adapter; the first is
selected. -/
theorem hpo_tie_break_first_witness :
    none ∉ mse_hpo adapter0 gridT X10 mask10 10 pick10 ∧
    mseAt (mse_hpo adapter0 gridT X10 mask10 10 pick10) 1 =
      mseAt (mse_hpo adapter0 gridT X10 mask10 10 pick10) 0 ∧
    (np_argmin (mse_hpo adapter0 gridT X10 mask10 10 pick10) ≤ 0 ∧
     mseAt (mse_hpo adapter0 gridT X10 mask10 10 pick10)
       (np_argmin (mse_hpo adapter0 gridT X10 mask10 10 pick10)) =
       mseAt (mse_hpo adapter0 gridT X10 mask10 10 pick10) 0 ∧
     best_params adapter0 gridT X10 mask10 10 pick10 =
       (dict_product gridT).getD
         (np_argmin (mse_hpo adapter0 gridT X10 mask10 10 pick10)) []) :=
  ⟨by decide, rfl,
    hpo_tie_break_first adapter0 gridT X10 mask10 10 pick10 0 1
      (by decide) (by decide) (by decide) rfl
      (fun t ht => by
        have ht2 : t < 2 := ht
        interval_cases t
        · exact le_refl _
        · exact le_refl _)⟩

/-! ### Lemmas about the missing-not-at-random mask -/

theorem foldl_mnar_step_spec {m n : ℕ} {X : Fin m → Fin n → ℚ} (d : MnarDraw m n X)
    (L : List (Fin d.n_cols_affected)) (m0 : Fin m → Fin n → Bool) (r : Fin m) (c : Fin n) :
    (L.foldl (mnar_step d) m0) r c = true ↔
      (m0 r c = true ∨ ∃ a ∈ L, cols_affected d a = c ∧ r ∈ values_to_discard d a) := by
  induction L generalizing m0 with
  | nil => simp
  | cons a L ih =>
    rw [List.foldl_cons, ih]
    constructor
    · rintro (h | h)
      · unfold mnar_step at h
        by_cases hc : cols_affected d a = c ∧ r ∈ values_to_discard d a
        · exact Or.inr ⟨a, List.mem_cons_self a L, hc⟩
        · rw [if_neg hc] at h
          exact Or.inl h
      · obtain ⟨b, hb, hbc⟩ := h
        exact Or.inr ⟨b, List.mem_cons_of_mem a hb, hbc⟩
    · rintro (h | ⟨b, hb, hbc⟩)
      · left
        unfold mnar_step
        split
        · rfl
        · exact h
      · rcases List.mem_cons.mp hb with rfl | hb2
        · left
          unfold mnar_step
          rw [if_pos hbc]
        · exact Or.inr ⟨b, hb2, hbc⟩

theorem mnar_mask_eq_true_iff {m n : ℕ} (X : Fin m → Fin n → ℚ) (d : MnarDraw m n X)
    (r : Fin m) (c : Fin n) :
    mnar_mask X d r c = true ↔
      ∃ a, cols_affected d a = c ∧ r ∈ values_to_discard d a := by
  unfold mnar_mask
  rw [foldl_mnar_step_spec]
  simp

theorem cols_affected_injective {m n : ℕ} {X : Fin m → Fin n → ℚ} (d : MnarDraw m n X) :
    Function.Injective (cols_affected d) := by
  intro a b hab
  unfold cols_affected at hab
  have h2 := d.cols_permuted.injective hab
  have hv : a.val = b.val := by
    have h3 := congrArg Fin.val h2
    simpa using h3
  exact Fin.ext hv

theorem cols_affected_ne_unaffected {m n : ℕ} {X : Fin m → Fin n → ℚ} (d : MnarDraw m n X)
    (a : Fin d.n_cols_affected) (u : Fin (n - d.n_cols_affected)) :
    cols_affected d a ≠ cols_unaffected d u := by
  intro h
  unfold cols_affected cols_unaffected at h
  have h2 := d.cols_permuted.injective h
  have hv := congrArg Fin.val h2
  simp only at hv
  have ha := a.isLt
  omega

theorem length_values_to_discard {m n : ℕ} {X : Fin m → Fin n → ℚ} (d : MnarDraw m n X)
    (a : Fin d.n_cols_affected) :
    (values_to_discard d a).length = n_values_to_discard d := by
  simp [values_to_discard]

theorem mem_values_to_discard {m n : ℕ} {X : Fin m → Fin n → ℚ} {d : MnarDraw m n X}
    {a : Fin d.n_cols_affected} {r : Fin m} :
    r ∈ values_to_discard d a ↔
      ∃ t : Fin (n_values_to_discard d),
        r = d.argsort a ⟨d.discard_lower_start a + t.val,
          discard_run_lt t.isLt (d.start_le a)⟩ := by
  unfold values_to_discard
  rw [List.mem_map]
  constructor
  · rintro ⟨t, _, rfl⟩
    exact ⟨t, rfl⟩
  · rintro ⟨t, rfl⟩
    exact ⟨t, List.mem_finRange t, rfl⟩

theorem exists_row_not_discarded {m n : ℕ} {X : Fin m → Fin n → ℚ} (d : MnarDraw m n X)
    (a : Fin d.n_cols_affected) :
    ∃ r : Fin m, r ∉ values_to_discard d a := by
  have hm1 : 1 ≤ m := by
    have hs : d.discard_lower_start a + n_values_to_discard d + 2 ≤ m := d.start_le a
    omega
  have hlt : n_values_to_discard d < m :=
    Nat.div_lt_self hm1 d.two_le
  have hlen : (values_to_discard d a).length < m := by
    rw [length_values_to_discard]
    exact hlt
  by_contra hall
  push_neg at hall
  have hcard : (Finset.univ : Finset (Fin m)).card ≤ (values_to_discard d a).toFinset.card :=
    Finset.card_le_card (fun r _ => List.mem_toFinset.mpr (hall r))
  rw [Finset.card_univ, Fintype.card_fin] at hcard
  have hle := List.toFinset_card_le (values_to_discard d a)
  omega

/-- Claim C3, amended: under the missing-not-at-random mechanism (which
presupposes at least 3 columns via `2 ≤ n_cols_affected < n_features`),
provided additionally that the per-column run length
`n_samples // n_cols_affected` is at least 1 (equivalently
`n_cols_affected ≤ n_samples`), every affected column of the generated
mask has at least one true and at least one false entry, and every
unaffected column has no true entry. -/
theorem generate_missing_mask_mnar_cols {m n : ℕ} (X : Fin m → Fin n → ℚ)
    (percent : ℕ) (rand : Fin m → Fin n → ℚ) (d : MnarDraw m n X)
    (hrun : 1 ≤ n_values_to_discard d) :
    (∀ a : Fin d.n_cols_affected,
      ∃ r, generate_missing_mask X percent false rand d r (cols_affected d a) = true) ∧
    (∀ a : Fin d.n_cols_affected,
      ∃ r, generate_missing_mask X percent false rand d r (cols_affected d a) = false) ∧
    (∀ u : Fin (n - d.n_cols_affected), ∀ r,
      generate_missing_mask X percent false rand d r (cols_unaffected d u) = false) := by
  have hgen : generate_missing_mask X percent false rand d = mnar_mask X d := by
    unfold generate_missing_mask
    simp
  rw [hgen]
  refine ⟨?_, ?_, ?_⟩
  · intro a
    refine ⟨d.argsort a ⟨d.discard_lower_start a + (0:ℕ),
      discard_run_lt hrun (d.start_le a)⟩, ?_⟩
    rw [mnar_mask_eq_true_iff]
    exact ⟨a, rfl, mem_values_to_discard.mpr ⟨⟨0, hrun⟩, rfl⟩⟩
  · intro a
    obtain ⟨r, hr⟩ := exists_row_not_discarded d a
    refine ⟨r, ?_⟩
    cases hb : mnar_mask X d r (cols_affected d a) with
    | false => rfl
    | true =>
      obtain ⟨b, hbc, hbm⟩ := (mnar_mask_eq_true_iff X d r _).mp hb
      have hba : b = a := cols_affected_injective d hbc
      rw [hba] at hbm
      exact absurd hbm hr
  · intro u r
    cases hb : mnar_mask X d r (cols_unaffected d u) with
    | false => rfl
    | true =>
      obtain ⟨b, hbc, _⟩ := (mnar_mask_eq_true_iff X d r _).mp hb
      exact absurd hbc (cols_affected_ne_unaffected d b u)

/-- A concrete 4×3 matrix for the mask-generator instances. -/
def X43 : Fin 4 → Fin 3 → ℚ := fun _ _ => 0

/-- A concrete uniform draw (unused by the structured branch). -/
def rand43 : Fin 4 → Fin 3 → ℚ := fun _ _ => 0

/-- A concrete valid draw for the not-at-random mechanism on `X43`:
2 affected columns, identity column permutation and row sort, run
length `4 // 2 = 2`, starting offsets 0 (the only value of
`randint(0, 4 - 2 - 1)`). -/
def draw43 : MnarDraw 4 3 X43 where
  n_cols_affected := 2
  two_le := le_refl 2
  lt_n := by omega
  cols_permuted := Equiv.refl _
  depends_on := fun _ => ⟨0, by omega⟩
  argsort := fun _ => Equiv.refl _
  argsort_sorted := fun _ _ _ _ => le_refl 0
  discard_lower_start := fun _ => 0
  start_le := by
    intro a
    show (0:ℕ) + 4 / 2 + 2 ≤ 4
    decide

/-- The first affected column index of `draw43`. -/
def a43 : Fin draw43.n_cols_affected := ⟨0, by decide⟩

/-- The single unaffected column index of `draw43`. -/
def u43 : Fin (3 - draw43.n_cols_affected) := ⟨0, by decide⟩

/-- Witness for claim C3 (amended) on the concrete draw `draw43`:
affected column 0 gains a true and keeps a false entry, unaffected
column 0 stays fully observed. -/
theorem generate_missing_mask_mnar_cols_witness :
    1 ≤ n_values_to_discard draw43 ∧
    (∃ r, generate_missing_mask X43 10 false rand43 draw43 r (cols_affected draw43 a43) = true) ∧
    (∃ r, generate_missing_mask X43 10 false rand43 draw43 r (cols_affected draw43 a43) = false) ∧
    (∀ r, generate_missing_mask X43 10 false rand43 draw43 r (cols_unaffected draw43 u43) = false) :=
  ⟨by decide,
   (generate_missing_mask_mnar_cols X43 10 rand43 draw43 (by decide)).1 a43,
   (generate_missing_mask_mnar_cols X43 10 rand43 draw43 (by decide)).2.1 a43,
   (generate_missing_mask_mnar_cols X43 10 rand43 draw43 (by decide)).2.2 u43⟩

/-- A concrete 2×4 matrix (fewer rows than affected columns). -/
def X24 : Fin 2 → Fin 4 → ℚ := fun _ _ => 0

/-- A concrete uniform draw for the 2×4 instance. -/
def rand24 : Fin 2 → Fin 4 → ℚ := fun _ _ => 0

/-- A valid draw on the 2×4 matrix whose run length `2 // 3` is zero:
3 affected columns, identity permutation and sort, starting offsets 0
(the only value of `randint(0, 2 - 0 - 1)`). -/
def draw24 : MnarDraw 2 4 X24 where
  n_cols_affected := 3
  two_le := by omega
  lt_n := by omega
  cols_permuted := Equiv.refl _
  depends_on := fun _ => ⟨0, by omega⟩
  argsort := fun _ => Equiv.refl _
  argsort_sorted := fun _ _ _ _ => le_refl 0
  discard_lower_start := fun _ => 0
  start_le := by
    intro a
    show (0:ℕ) + 2 / 3 + 2 ≤ 2
    decide

/-- The first affected column index of `draw24`. -/
def a24 : Fin draw24.n_cols_affected := ⟨0, by decide⟩

/-- Claim C3, counterexample: on a 2×4 input (at least 3 columns, as
the claim requires) the valid draw `draw24` gives run length
`2 // 3 = 0`, so affected column 0 receives no true entry: both of its
rows stay false, contradicting "every affected column has at least one
true entry". -/
theorem generate_missing_mask_mnar_empty_run :
    generate_missing_mask X24 10 false rand24 draw24 0 (cols_affected draw24 a24) = false ∧
    generate_missing_mask X24 10 false rand24 draw24 1 (cols_affected draw24 a24) = false := by
  exact ⟨by decide, by decide⟩

/-- Claim C10: for every affected column the contiguous discard run of
sorted positions ends no later than sorted position `n_samples - 3`
(the starting offset being drawn from
`randint(0, n_samples - run_length - 1)`), so the rows at sorted
positions `n_samples - 1` and `n_samples - 2` — the rows holding the
two largest values of the column's driver — are never marked missing in
that column. -/
theorem mnar_top_two_never_masked {m n : ℕ} (X : Fin m → Fin n → ℚ)
    (percent : ℕ) (rand : Fin m → Fin n → ℚ) (d : MnarDraw m n X)
    (hm : 2 ≤ m) (a : Fin d.n_cols_affected) :
    (∀ t, t < n_values_to_discard d → d.discard_lower_start a + t ≤ m - 3) ∧
    generate_missing_mask X percent false rand d
      (d.argsort a ⟨m - 1, by omega⟩) (cols_affected d a) = false ∧
    generate_missing_mask X percent false rand d
      (d.argsort a ⟨m - 2, by omega⟩) (cols_affected d a) = false := by
  have hgen : generate_missing_mask X percent false rand d = mnar_mask X d := by
    unfold generate_missing_mask
    simp
  rw [hgen]
  have hs : d.discard_lower_start a + n_values_to_discard d + 2 ≤ m := d.start_le a
  have hrun : ∀ t, t < n_values_to_discard d → d.discard_lower_start a + t ≤ m - 3 := by
    intro t ht
    omega
  have hnot : ∀ (p : Fin m), (m - 2 ≤ p.val) →
      mnar_mask X d (d.argsort a p) (cols_affected d a) = false := by
    intro p hp
    cases hb : mnar_mask X d (d.argsort a p) (cols_affected d a) with
    | false => rfl
    | true =>
      obtain ⟨b, hbc, hbm⟩ := (mnar_mask_eq_true_iff X d _ _).mp hb
      have hba : b = a := cols_affected_injective d hbc
      rw [hba] at hbm
      obtain ⟨t, hteq⟩ := mem_values_to_discard.mp hbm
      have hfin := (d.argsort a).injective hteq.symm
      have hval := congrArg Fin.val hfin
      simp only at hval
      have ht3 := hrun t.val t.isLt
      omega
  exact ⟨hrun, hnot ⟨m - 1, by omega⟩ (by simp; omega), hnot ⟨m - 2, by omega⟩ (by simp)⟩

/-- Witness for claim C10 on the concrete draw `draw43`: with 4 rows
the run `{0, 1}` of sorted positions ends at position `1 = 4 - 3`, and
the rows at sorted positions 2 and 3 stay unmasked in affected
column 0. -/
theorem mnar_top_two_never_masked_witness :
    (2:ℕ) ≤ 4 ∧
    ((∀ t, t < n_values_to_discard draw43 → draw43.discard_lower_start a43 + t ≤ 4 - 3) ∧
     generate_missing_mask X43 10 false rand43 draw43
       (draw43.argsort a43 ⟨4 - 1, by omega⟩) (cols_affected draw43 a43) = false ∧
     generate_missing_mask X43 10 false rand43 draw43
       (draw43.argsort a43 ⟨4 - 2, by omega⟩) (cols_affected draw43 a43) = false) :=
  ⟨by omega, mnar_top_two_never_masked X43 10 rand43 draw43 (by omega) a43⟩

/-! ### Lemmas about the orchestration schedule -/

theorem mem_experiment_iff {α : Type} (drawMask : ℕ → α) (ps : List ℕ) (r : ExpRecord α) :
    r ∈ experiment α drawMask ps ↔
      ∃ (pi : ℕ) (di : Fin 4) (mi : ℕ) (ii : Fin 4), pi < ps.length ∧ mi < 2 ∧
        r.percent_missing = ps.getD pi 0 ∧ r.dataIdx = di ∧
        r.missing_at_random = decide (mi = 0) ∧ r.imputerIdx = ii ∧
        r.maskDraw = (pi * 4 + di.val) * 2 + mi ∧
        r.missing_mask = drawMask ((pi * 4 + di.val) * 2 + mi) := by
  unfold experiment
  simp only [List.mem_flatMap, List.mem_map, List.mem_range, List.mem_finRange, true_and]
  constructor
  · rintro ⟨pi, hpi, di, mi, hmi, ii, rfl⟩
    exact ⟨pi, di, mi, ii, hpi, hmi, rfl, rfl, rfl, rfl, rfl, rfl⟩
  · obtain ⟨rp, rd, rm, ri, rmd, rmm⟩ := r
    rintro ⟨pi, di, mi, ii, hpi, hmi, e1, e2, e3, e4, e5, e6⟩
    simp only at e1 e2 e3 e4 e5 e6
    subst e1 e2 e3 e4 e5 e6
    exact ⟨pi, hpi, _, mi, hmi, _, rfl⟩

/-- Claim C4, amended: the mask is redrawn exactly once per
(percent missing, dataset, mechanism) triple — records from distinct
triples carry distinct draw ordinals — and that one draw IS shared
(reused) by all imputers evaluated within the triple: two records of a
run have the same draw ordinal, hence the same mask, exactly when they
belong to the same triple, regardless of their imputer. -/
theorem experiment_mask_per_triple {α : Type} (drawMask : ℕ → α) (ps : List ℕ)
    (hnd : ps.Nodup) (r1 r2 : ExpRecord α)
    (h1 : r1 ∈ experiment α drawMask ps) (h2 : r2 ∈ experiment α drawMask ps) :
    ((r1.percent_missing = r2.percent_missing ∧ r1.dataIdx = r2.dataIdx ∧
      r1.missing_at_random = r2.missing_at_random) ↔ r1.maskDraw = r2.maskDraw) ∧
    (r1.maskDraw = r2.maskDraw → r1.missing_mask = r2.missing_mask) := by
  obtain ⟨p1, d1, m1, i1, hp1, hm1, f1, f2, f3, f4, f5, f6⟩ :=
    (mem_experiment_iff drawMask ps r1).mp h1
  obtain ⟨p2, d2, m2, i2, hp2, hm2, g1, g2, g3, g4, g5, g6⟩ :=
    (mem_experiment_iff drawMask ps r2).mp h2
  constructor
  · constructor
    · rintro ⟨hp, hd, hm⟩
      rw [f1, g1, List.getD_eq_getElem ps 0 hp1, List.getD_eq_getElem ps 0 hp2] at hp
      have hpe : p1 = p2 := (List.Nodup.getElem_inj_iff hnd).mp hp
      rw [f2, g2] at hd
      rw [f3, g3] at hm
      have hme : m1 = m2 := by
        rcases (by omega : m1 = 0 ∨ m1 = 1) with rfl | rfl <;>
          rcases (by omega : m2 = 0 ∨ m2 = 1) with rfl | rfl <;> simp_all
      rw [f5, g5, hpe, hd, hme]
    · intro hmask
      rw [f5, g5] at hmask
      have hb : p1 = p2 ∧ d1.val = d2.val ∧ m1 = m2 := by
        have hd1 := d1.isLt
        have hd2 := d2.isLt
        omega
      obtain ⟨hpe, hde, hme⟩ := hb
      have hdd : d1 = d2 := Fin.ext hde
      refine ⟨?_, ?_, ?_⟩
      · rw [f1, g1, hpe]
      · rw [f2, g2, hdd]
      · rw [f3, g3, hme]
  · intro hmask
    rw [f5, g5] at hmask
    rw [f6, g6, hmask]

/-- Fallback record for safe list indexing in concrete statements. -/
def recDefault : ExpRecord ℕ := ⟨0, 0, false, 0, 0, 0⟩

/-- Claim C4, counterexample: in the concrete run `experiment ℕ id
[10]` the first two records — imputers 0 and 1 of the triple (10,
dataset 0, missing-at-random) — were produced with distinct imputers
but the very same mask draw (ordinal 0) and the same mask value: the
mask IS reused across the imputers within the triple. -/
theorem experiment_mask_shared_across_imputers :
    ((experiment ℕ id [10]).getD 0 recDefault).percent_missing =
      ((experiment ℕ id [10]).getD 1 recDefault).percent_missing ∧
    ((experiment ℕ id [10]).getD 0 recDefault).dataIdx =
      ((experiment ℕ id [10]).getD 1 recDefault).dataIdx ∧
    ((experiment ℕ id [10]).getD 0 recDefault).missing_at_random =
      ((experiment ℕ id [10]).getD 1 recDefault).missing_at_random ∧
    ((experiment ℕ id [10]).getD 0 recDefault).imputerIdx ≠
      ((experiment ℕ id [10]).getD 1 recDefault).imputerIdx ∧
    ((experiment ℕ id [10]).getD 0 recDefault).maskDraw =
      ((experiment ℕ id [10]).getD 1 recDefault).maskDraw ∧
    ((experiment ℕ id [10]).getD 0 recDefault).missing_mask =
      ((experiment ℕ id [10]).getD 1 recDefault).missing_mask := by
  decide

/-- Witness for claim C4 (amended) on the concrete run
`experiment ℕ id [10, 30]`, applied to its first two records. -/
theorem experiment_mask_per_triple_witness :
    ([10, 30] : List ℕ).Nodup ∧
    (experiment ℕ id [10, 30]).getD 0 recDefault ∈ experiment ℕ id [10, 30] ∧
    (experiment ℕ id [10, 30]).getD 1 recDefault ∈ experiment ℕ id [10, 30] ∧
    ((((experiment ℕ id [10, 30]).getD 0 recDefault).percent_missing =
        ((experiment ℕ id [10, 30]).getD 1 recDefault).percent_missing ∧
      ((experiment ℕ id [10, 30]).getD 0 recDefault).dataIdx =
        ((experiment ℕ id [10, 30]).getD 1 recDefault).dataIdx ∧
      ((experiment ℕ id [10, 30]).getD 0 recDefault).missing_at_random =
        ((experiment ℕ id [10, 30]).getD 1 recDefault).missing_at_random) ↔
      ((experiment ℕ id [10, 30]).getD 0 recDefault).maskDraw =
        ((experiment ℕ id [10, 30]).getD 1 recDefault).maskDraw) ∧
    (((experiment ℕ id [10, 30]).getD 0 recDefault).maskDraw =
        ((experiment ℕ id [10, 30]).getD 1 recDefault).maskDraw →
      ((experiment ℕ id [10, 30]).getD 0 recDefault).missing_mask =
        ((experiment ℕ id [10, 30]).getD 1 recDefault).missing_mask) :=
  ⟨by decide, by decide, by decide,
    experiment_mask_per_triple id [10, 30] (by decide)
      ((experiment ℕ id [10, 30]).getD 0 recDefault)
      ((experiment ℕ id [10, 30]).getD 1 recDefault)
      (by decide) (by decide)⟩
